import Mathlib

/-!
Queue metrics of the Slurm exporter (`queue.go`)

A shallow embedding of `queue.go` and the properties of its parser, partition
lister and collector.

Modelling conventions.

* A Go `string` (and the `[]byte` it is converted from) is modelled by
  `Str := List UInt8`, the sequence of its bytes; it need not be valid UTF-8.
  A string literal of the source is written `bytes "..."`, its UTF-8 encoding.
* A Go `map[string]float64` is modelled by an association list without
  duplicate keys (`GoMap`), its entries in the order in which the keys were
  first assigned.  Go maps are unordered: the general statements about tables
  are made through `mapLookup` (key present or not, and its value), `mapIndex`
  (the Go expression `m[k]`, which reads 0 at a missing key) and membership in
  `mapKeys`.  Where two runs are stated to give equal snapshots, or a snapshot
  is displayed, equality of the lists implies equality of the maps.
* The `float64` counters only ever hold the integers obtained from 0 by `++`.
  Such a counter is exact below 2^53, and a counter is incremented at most once
  per line of the input, a byte slice, which Go on a 64-bit platform cannot make
  longer than 2^48 bytes; so a counter is a `Nat`.
* `strings.TrimSpace` reads its argument as UTF-8: the white space it removes
  is the encodings of the code points with the White_Space property
  (`whiteSpace`); a byte outside such an encoding is not white space.
* A run-time panic (an index out of range; in `MustNewConstMetric`, a label
  value that is not valid UTF-8) is the result `none`.
-/

namespace SlurmQueue

/-- Go strings, as sequences of bytes. -/
abbrev Str := List UInt8

/-- The bytes of a string literal of the source: its UTF-8 encoding. -/
def bytes (s : String) : Str :=
  s.toUTF8.data.toList

/-- The byte of the separator ",". -/
def comma : UInt8 := 0x2c

/-- The byte of the separator "\n". -/
def newline : UInt8 := 0x0a

/-! ## The `strings` functions used by `queue.go` -/

/-- The call `strings.Contains(s, substr)` for a substring of the single byte `c`. -/
def Contains (s : Str) (c : UInt8) : Bool :=
  s.any (fun x => x == c)

/-- The call `strings.Split(s, sep)` for a separator of the single byte `sep`: the
pieces of `s` between the occurrences of `sep`; there is always at least one
piece, and `n` separators give `n + 1` pieces. -/
def Split : Str → UInt8 → List Str
  | [], _ => [[]]
  | c :: cs, sep =>
    if c = sep then [] :: Split cs sep
    else
      match Split cs sep with
      | [] => [[c]]
      | piece :: pieces => (c :: piece) :: pieces

/-- The function `strings.TrimSuffix(s, suffix)`: `s` without the given suffix
when it ends with it, else `s` itself. -/
def TrimSuffix (s suffix : Str) : Str :=
  if suffix.isSuffixOf s then s.take (s.length - suffix.length) else s

/-- The code points for which `unicode.IsSpace` holds (the Unicode White_Space property). -/
def spaceRunes : List Nat :=
  [0x09, 0x0a, 0x0b, 0x0c, 0x0d, 0x20, 0x85, 0xa0, 0x1680,
   0x2000, 0x2001, 0x2002, 0x2003, 0x2004, 0x2005, 0x2006, 0x2007, 0x2008, 0x2009, 0x200a,
   0x2028, 0x2029, 0x202f, 0x205f, 0x3000]

/-- The white space of a Go string: the UTF-8 encodings of the code points of `spaceRunes`. -/
def whiteSpace : List Str :=
  spaceRunes.map (fun r => String.utf8EncodeChar (Char.ofNat r))

/-- The call `strings.TrimLeftFunc(s, unicode.IsSpace)`: while `s` starts with
a white space character, drop it. The fuel `n` bounds the number of rounds;
the length of `s` is enough. -/
def trimLeftSpace : Nat → Str → Str
  | 0, s => s
  | n + 1, s =>
    match whiteSpace.find? (fun w => w.isPrefixOf s) with
    | some w => trimLeftSpace n (s.drop w.length)
    | none => s

/-- The call `strings.TrimRightFunc(s, unicode.IsSpace)`: while `s` ends with a
white space character, drop it. The fuel `n` bounds the number of rounds; the
length of `s` is enough. -/
def trimRightSpace : Nat → Str → Str
  | 0, s => s
  | n + 1, s =>
    match whiteSpace.find? (fun w => w.isSuffixOf s) with
    | some w => trimRightSpace n (s.take (s.length - w.length))
    | none => s

/-- The function `strings.TrimSpace(s)`: `s` without its leading and trailing white space. -/
def TrimSpace (s : Str) : Str :=
  trimRightSpace s.length (trimLeftSpace s.length s)

/-- A continuation byte of UTF-8. -/
def isCont (b : UInt8) : Bool :=
  0x80 ≤ b && b ≤ 0xbf

/-- The second byte `b1` is in the range UTF-8 accepts after the first byte `b0`
of a three- or four-byte sequence. -/
def acceptSecond (b0 b1 : UInt8) : Bool :=
  (if b0 = 0xe0 then 0xa0 else if b0 = 0xf0 then 0x90 else 0x80) ≤ b1 &&
    b1 ≤ (if b0 = 0xed then 0x9f else if b0 = 0xf4 then 0x8f else 0xbf)

/-- The function `utf8.ValidString(s)`: `s` consists of valid UTF-8 sequences only. -/
def ValidString : Str → Bool
  | [] => true
  | b0 :: rest =>
    if b0 < 0x80 then ValidString rest
    else if 0xc2 ≤ b0 ∧ b0 ≤ 0xdf then
      match rest with
      | b1 :: rest1 => isCont b1 && ValidString rest1
      | [] => false
    else if 0xe0 ≤ b0 ∧ b0 ≤ 0xef then
      match rest with
      | b1 :: b2 :: rest2 => acceptSecond b0 b1 && isCont b2 && ValidString rest2
      | _ => false
    else if 0xf0 ≤ b0 ∧ b0 ≤ 0xf4 then
      match rest with
      | b1 :: b2 :: b3 :: rest3 =>
        acceptSecond b0 b1 && isCont b2 && isCont b3 && ValidString rest3
      | _ => false
    else false

/-! ## Go maps from strings to counters -/

/-- A Go `map[string]float64` holding counters. -/
abbrev GoMap := List (Str × Nat)

/-- The two-result read `v, ok := m[key]`: `none` when the key is absent. -/
def mapLookup : GoMap → Str → Option Nat
  | [], _ => none
  | (k, v) :: m, key => if k = key then some v else mapLookup m key

/-- The expression `m[key]`: the zero value at an absent key. -/
def mapIndex (m : GoMap) (key : Str) : Nat :=
  (mapLookup m key).getD 0

/-- The assignment `m[key] = val`. -/
def mapAssign : GoMap → Str → Nat → GoMap
  | [], key, val => [(key, val)]
  | (k, v) :: m, key, val =>
    if k = key then (k, val) :: m else (k, v) :: mapAssign m key val

/-- The statement `m[key]++`. -/
def mapIncr (m : GoMap) (key : Str) : GoMap :=
  mapAssign m key (mapIndex m key + 1)

/-- The keys a `range` over the map visits (in some order). -/
def mapKeys (m : GoMap) : List Str :=
  m.map Prod.fst

/-! ## `queue.go` -/

/-- The struct `QueueMetrics`: one table per job state. -/
structure QueueMetrics where
  pending : GoMap
  pending_dep : GoMap
  running : GoMap
  suspended : GoMap
  cancelled : GoMap
  completing : GoMap
  completed : GoMap
  configuring : GoMap
  failed : GoMap
  timeout : GoMap
  preempted : GoMap
  node_fail : GoMap
  deriving DecidableEq, Repr

/-- The part of `PartitionInfo` after the `sinfo` command has run: from its
captured standard output `out` to the partition list. -/
def PartitionInfo (out : Str) : List Str :=
  (Split out newline).map (fun line => TrimSpace (TrimSuffix line (bytes "*")))

/-- The function `initMap`: every key set to 0. -/
def initMap (keys : List Str) : GoMap :=
  keys.foldl (fun out k => mapAssign out k 0) []

/-- The body of the loop over the lines in `ParseQueueMetrics`, on the snapshot
`qm`.  The index expressions `splitted[1]` and `splitted[3]` panic when the
index is out of range. -/
def parseLine (qm : QueueMetrics) (line : Str) : Option QueueMetrics :=
  if Contains line comma then
    let splitted := Split line comma
    match splitted[1]? with
    | none => none
    | some state =>
    match splitted[3]? with
    | none => none
    | some partition =>
      if state = bytes "PENDING" then
        let qm := { qm with pending := mapIncr qm.pending partition }
        if splitted.length > 2 ∧ splitted[2]? = some (bytes "Dependency") then
          some { qm with pending_dep := mapIncr qm.pending_dep partition }
        else some qm
      else if state = bytes "RUNNING" then
        some { qm with running := mapIncr qm.running partition }
      else if state = bytes "SUSPENDED" then
        some { qm with suspended := mapIncr qm.suspended partition }
      else if state = bytes "CANCELLED" then
        some { qm with cancelled := mapIncr qm.cancelled partition }
      else if state = bytes "COMPLETING" then
        some { qm with completing := mapIncr qm.completing partition }
      else if state = bytes "COMPLETED" then
        some { qm with completed := mapIncr qm.completed partition }
      else if state = bytes "CONFIGURING" then
        some { qm with configuring := mapIncr qm.configuring partition }
      else if state = bytes "FAILED" then
        some { qm with failed := mapIncr qm.failed partition }
      else if state = bytes "TIMEOUT" then
        some { qm with timeout := mapIncr qm.timeout partition }
      else if state = bytes "PREEMPTED" then
        some { qm with preempted := mapIncr qm.preempted partition }
      else if state = bytes "NODE_FAIL" then
        some { qm with node_fail := mapIncr qm.node_fail partition }
      else some qm
  else some qm

/-- The loop `for _, line := range lines` of `ParseQueueMetrics`. -/
def parseLines : QueueMetrics → List Str → Option QueueMetrics
  | qm, [] => some qm
  | qm, line :: lines =>
    match parseLine qm line with
    | none => none
    | some qm1 => parseLines qm1 lines

/-- The function `ParseQueueMetrics`. -/
def ParseQueueMetrics (input : Str) (partition : List Str) : Option QueueMetrics :=
  let qm : QueueMetrics :=
    { pending := initMap partition
      pending_dep := initMap partition
      running := initMap partition
      suspended := initMap partition
      cancelled := initMap partition
      completing := initMap partition
      completed := initMap partition
      configuring := initMap partition
      failed := initMap partition
      timeout := initMap partition
      preempted := initMap partition
      node_fail := initMap partition }
  let lines := Split input newline
  parseLines qm lines

/-- The function `QueueGetMetrics`, from the captured outputs of the two
commands (`squeue` in `QueueData`, `sinfo` in `PartitionInfo`). -/
def QueueGetMetrics (squeueOut sinfoOut : Str) : Option QueueMetrics :=
  ParseQueueMetrics squeueOut (PartitionInfo sinfoOut)

/-- A descriptor as built by `prometheus.NewDesc(fqName, help, variableLabels, nil)`. -/
structure Desc where
  fqName : String
  help : String
  variableLabels : List String
  deriving DecidableEq, Repr

/-- A gauge sample: its descriptor, its value and its label values. -/
structure Metric where
  desc : Desc
  value : Nat
  labelValues : List Str
  deriving DecidableEq, Repr

/-- The call `prometheus.MustNewConstMetric(desc, prometheus.GaugeValue, value, labelValues...)`,
which panics unless there is one label value per variable label and every label
value is valid UTF-8. -/
def MustNewConstMetric (desc : Desc) (value : Nat) (labelValues : List Str) : Option Metric :=
  if labelValues.length = desc.variableLabels.length ∧
      labelValues.all ValidString = true then
    some { desc := desc, value := value, labelValues := labelValues }
  else none

/-- The struct `QueueCollector`: one descriptor per job state. -/
structure QueueCollector where
  pending : Desc
  pending_dep : Desc
  running : Desc
  suspended : Desc
  cancelled : Desc
  completing : Desc
  completed : Desc
  configuring : Desc
  failed : Desc
  timeout : Desc
  preempted : Desc
  node_fail : Desc
  deriving DecidableEq, Repr

/-- The function `NewQueueCollector`. -/
def NewQueueCollector : QueueCollector :=
  { pending := ⟨"slurm_queue_pending", "Pending jobs in queue", ["partition"]⟩
    pending_dep := ⟨"slurm_queue_pending_dependency", "Pending jobs because of dependency in queue", ["partition"]⟩
    running := ⟨"slurm_queue_running", "Running jobs in the cluster", ["partition"]⟩
    suspended := ⟨"slurm_queue_suspended", "Suspended jobs in the cluster", ["partition"]⟩
    cancelled := ⟨"slurm_queue_cancelled", "Cancelled jobs in the cluster", ["partition"]⟩
    completing := ⟨"slurm_queue_completing", "Completing jobs in the cluster", ["partition"]⟩
    completed := ⟨"slurm_queue_completed", "Completed jobs in the cluster", ["partition"]⟩
    configuring := ⟨"slurm_queue_configuring", "Configuring jobs in the cluster", ["partition"]⟩
    failed := ⟨"slurm_queue_failed", "Number of failed jobs", ["partition"]⟩
    timeout := ⟨"slurm_queue_timeout", "Jobs stopped by timeout", ["partition"]⟩
    preempted := ⟨"slurm_queue_preempted", "Number of preempted jobs", ["partition"]⟩
    node_fail := ⟨"slurm_queue_node_fail", "Number of jobs stopped due to node fail", ["partition"]⟩ }

/-- The method `Describe`: the descriptors it sends on the channel, in order. -/
def QueueCollector.Describe (qc : QueueCollector) : List Desc :=
  [qc.pending, qc.pending_dep, qc.running, qc.suspended, qc.cancelled, qc.completing,
   qc.completed, qc.configuring, qc.failed, qc.timeout, qc.preempted, qc.node_fail]

/-- The method `collect`: the samples it sends on the channel, one per entry of
the table (Go visits the entries in an unspecified order). -/
def QueueCollector.collect (qc : QueueCollector) (metric : Desc) : GoMap → Option (List Metric)
  | [] => some []
  | (k, v) :: value =>
    match MustNewConstMetric metric v [k] with
    | none => none
    | some m =>
      match QueueCollector.collect qc metric value with
      | none => none
      | some ms => some (m :: ms)

/-- Two sends in sequence: the samples of the first, then those of the second;
a panic in either is a panic. -/
def sendThen (first second : Option (List Metric)) : Option (List Metric) :=
  match first with
  | none => none
  | some s1 =>
    match second with
    | none => none
    | some s2 => some (s1 ++ s2)

/-- The method `Collect`, from the captured outputs of the two commands: the
samples it sends on the channel. -/
def QueueCollector.Collect (qc : QueueCollector) (squeueOut sinfoOut : Str) : Option (List Metric) :=
  match QueueGetMetrics squeueOut sinfoOut with
  | none => none
  | some qm =>
    sendThen (qc.collect qc.pending qm.pending) <|
    sendThen (qc.collect qc.pending_dep qm.pending_dep) <|
    sendThen (qc.collect qc.running qm.running) <|
    sendThen (qc.collect qc.suspended qm.suspended) <|
    sendThen (qc.collect qc.cancelled qm.cancelled) <|
    sendThen (qc.collect qc.completing qm.completing) <|
    sendThen (qc.collect qc.completed qm.completed) <|
    sendThen (qc.collect qc.configuring qm.configuring) <|
    sendThen (qc.collect qc.failed qm.failed) <|
    sendThen (qc.collect qc.timeout qm.timeout) <|
    sendThen (qc.collect qc.preempted qm.preempted) <|
    qc.collect qc.node_fail qm.node_fail

/-! ## Vocabulary of the statements -/

/-- The twelve fields of `QueueMetrics` (and of `QueueCollector`), by name. -/
inductive Table where
  | pending | pending_dep | running | suspended | cancelled | completing
  | completed | configuring | failed | timeout | preempted | node_fail
  deriving DecidableEq, Repr

/-- All twelve fields, in the order of the struct. -/
def Table.all : List Table :=
  [.pending, .pending_dep, .running, .suspended, .cancelled, .completing,
   .completed, .configuring, .failed, .timeout, .preempted, .node_fail]

/-- The field of a snapshot with the given name. -/
def QueueMetrics.table (qm : QueueMetrics) : Table → GoMap
  | .pending => qm.pending
  | .pending_dep => qm.pending_dep
  | .running => qm.running
  | .suspended => qm.suspended
  | .cancelled => qm.cancelled
  | .completing => qm.completing
  | .completed => qm.completed
  | .configuring => qm.configuring
  | .failed => qm.failed
  | .timeout => qm.timeout
  | .preempted => qm.preempted
  | .node_fail => qm.node_fail

/-- The eleven primary states of `squeue` with the field that counts each. -/
def primaryStates : List (Str × Table) :=
  [(bytes "PENDING", .pending), (bytes "RUNNING", .running),
   (bytes "SUSPENDED", .suspended), (bytes "CANCELLED", .cancelled),
   (bytes "COMPLETING", .completing), (bytes "COMPLETED", .completed),
   (bytes "CONFIGURING", .configuring), (bytes "FAILED", .failed),
   (bytes "TIMEOUT", .timeout), (bytes "PREEMPTED", .preempted),
   (bytes "NODE_FAIL", .node_fail)]

/-- The state string of the job records a field counts. -/
def Table.state : Table → Str
  | .pending => bytes "PENDING"
  | .pending_dep => bytes "PENDING"
  | .running => bytes "RUNNING"
  | .suspended => bytes "SUSPENDED"
  | .cancelled => bytes "CANCELLED"
  | .completing => bytes "COMPLETING"
  | .completed => bytes "COMPLETED"
  | .configuring => bytes "CONFIGURING"
  | .failed => bytes "FAILED"
  | .timeout => bytes "TIMEOUT"
  | .preempted => bytes "PREEMPTED"
  | .node_fail => bytes "NODE_FAIL"

/-- A line is a job record of state `s` in partition `p`: split on commas, its
field 1 is `s` and its field 3 is `p`. -/
def isRecord (s p : Str) (line : Str) : Bool :=
  (Split line comma)[1]? == some s && (Split line comma)[3]? == some p

/-- A line matches the pair (field `T`, partition `p`): it is a job record of
the state of `T` in `p`, and for `pending_dep` its field 2 is "Dependency". -/
def matchesTable (T : Table) (p : Str) (line : Str) : Bool :=
  isRecord T.state p line &&
    (T != .pending_dep || (Split line comma)[2]? == some (bytes "Dependency"))

/-- Every line with a comma has at least four fields. -/
def WellFormed (lines : List Str) : Prop :=
  ∀ line ∈ lines, Contains line comma = true → 4 ≤ (Split line comma).length

/-- Two snapshots are the same: in each of the twelve tables, the same keys with
the same counts. -/
def QueueMetrics.same (a b : QueueMetrics) : Prop :=
  ∀ (T : Table) (p : Str), mapLookup (a.table T) p = mapLookup (b.table T) p

/-- The text whose lines are `lines`: the lines joined by newlines (`strings.Join(lines, "\n")`). -/
def joinLines : List Str → Str
  | [] => []
  | [line] => line
  | line :: next :: lines => line ++ newline :: joinLines (next :: lines)

/-- The string `t` is `s` without one trailing "*", when `s` has one. -/
def StarStripped (s t : Str) : Prop :=
  s = t ++ bytes "*" ∨ (s = t ∧ ¬ bytes "*" <:+ s)

/-- The string `t` is `s` without the white space at its two ends: `s` is a run
of white space characters, then `t`, then a run of white space characters, and
`t` neither starts nor ends with a white space character. -/
def SpaceTrimmed (s t : Str) : Prop :=
  ∃ pre post : List Str, (∀ w ∈ pre, w ∈ whiteSpace) ∧ (∀ w ∈ post, w ∈ whiteSpace) ∧
    s = pre.flatten ++ t ++ post.flatten ∧
    (∀ w ∈ whiteSpace, ¬ w <+: t) ∧ (∀ w ∈ whiteSpace, ¬ w <:+ t)

/-- The descriptor of a collector with the given field name. -/
def QueueCollector.desc (qc : QueueCollector) : Table → Desc
  | .pending => qc.pending
  | .pending_dep => qc.pending_dep
  | .running => qc.running
  | .suspended => qc.suspended
  | .cancelled => qc.cancelled
  | .completing => qc.completing
  | .completed => qc.completed
  | .configuring => qc.configuring
  | .failed => qc.failed
  | .timeout => qc.timeout
  | .preempted => qc.preempted
  | .node_fail => qc.node_fail

/-! ## Splitting and trimming -/

theorem Split_ne_nil (s : Str) (sep : UInt8) : Split s sep ≠ [] := by
  cases s with
  | nil => simp [Split]
  | cons c cs =>
    unfold Split
    split
    · simp
    · split <;> simp

theorem Split_cons_sep (cs : Str) (sep : UInt8) : Split (sep :: cs) sep = [] :: Split cs sep := by
  simp [Split]

theorem Split_cons_ne (c : UInt8) (cs : Str) (sep : UInt8) (h : c ≠ sep) :
    ∃ piece pieces, Split cs sep = piece :: pieces ∧
      Split (c :: cs) sep = (c :: piece) :: pieces := by
  cases hs : Split cs sep with
  | nil => exact absurd hs (Split_ne_nil cs sep)
  | cons piece pieces => exact ⟨piece, pieces, rfl, by simp [Split, h, hs]⟩

theorem Split_not_mem (s : Str) (sep : UInt8) : ∀ piece ∈ Split s sep, sep ∉ piece := by
  induction s with
  | nil => simp [Split]
  | cons c cs ih =>
    by_cases h : c = sep
    · subst h
      rw [Split_cons_sep]
      intro piece hp
      rcases List.mem_cons.1 hp with rfl | hp
      · simp
      · exact ih piece hp
    · obtain ⟨piece, pieces, e1, e2⟩ := Split_cons_ne c cs sep h
      rw [e2]
      rw [e1] at ih
      intro x hx
      rcases List.mem_cons.1 hx with rfl | hx
      · have := ih piece (List.mem_cons_self _ _)
        simp only [List.mem_cons, not_or]
        exact ⟨fun e => h e.symm, this⟩
      · exact ih x (List.mem_cons_of_mem _ hx)

theorem Split_length (s : Str) (sep : UInt8) : (Split s sep).length = s.count sep + 1 := by
  induction s with
  | nil => simp [Split]
  | cons c cs ih =>
    by_cases h : c = sep
    · subst h
      simp [Split_cons_sep, ih]
    · obtain ⟨piece, pieces, e1, e2⟩ := Split_cons_ne c cs sep h
      rw [e2, List.count_cons_of_ne (fun e => h e.symm), ← ih, e1]
      simp

theorem Split_of_not_mem (s : Str) (sep : UInt8) (h : sep ∉ s) : Split s sep = [s] := by
  induction s with
  | nil => simp [Split]
  | cons c cs ih =>
    simp only [List.mem_cons, not_or] at h
    have hc : c ≠ sep := fun e => h.1 e.symm
    simp [Split, hc, ih h.2]

theorem Split_append_sep (s rest : Str) (sep : UInt8) (h : sep ∉ s) :
    Split (s ++ sep :: rest) sep = s :: Split rest sep := by
  induction s with
  | nil => simp [Split]
  | cons c cs ih =>
    simp only [List.mem_cons, not_or] at h
    have hc : c ≠ sep := fun e => h.1 e.symm
    simp [Split, hc, ih h.2]

theorem joinLines_cons_cons (line next : Str) (lines : List Str) :
    joinLines (line :: next :: lines) = line ++ newline :: joinLines (next :: lines) := rfl

/-- Splitting a text gives its lines back: joining them is the text. -/
theorem joinLines_Split (s : Str) : joinLines (Split s newline) = s := by
  induction s with
  | nil => simp [Split, joinLines]
  | cons c cs ih =>
    by_cases h : c = newline
    · subst h
      rw [Split_cons_sep]
      cases hs : Split cs newline with
      | nil => exact absurd hs (Split_ne_nil cs _)
      | cons piece pieces =>
        rw [joinLines_cons_cons, ← hs, ih]
        rfl
    · obtain ⟨piece, pieces, e1, e2⟩ := Split_cons_ne c cs newline h
      rw [e2]
      rw [e1] at ih
      cases pieces with
      | nil =>
        simp only [joinLines] at ih ⊢
        rw [ih]
      | cons p2 ps =>
        rw [joinLines_cons_cons] at ih ⊢
        rw [← ih]
        rfl

/-- The lines of a joined text are the lines that were joined. -/
theorem Split_joinLines (lines : List Str) (hne : lines ≠ [])
    (h : ∀ line ∈ lines, newline ∉ line) : Split (joinLines lines) newline = lines := by
  induction lines with
  | nil => exact absurd rfl hne
  | cons line lines ih =>
    cases lines with
    | nil =>
      simp only [joinLines]
      exact Split_of_not_mem line _ (h line (List.mem_cons_self _ _))
    | cons next lines =>
      rw [joinLines_cons_cons, Split_append_sep _ _ _ (h line (List.mem_cons_self _ _)),
        ih (by simp) (fun l hl => h l (List.mem_cons_of_mem _ hl))]

theorem TrimSuffix_star (s : Str) : StarStripped s (TrimSuffix s (bytes "*")) := by
  unfold TrimSuffix StarStripped
  by_cases h : (bytes "*").isSuffixOf s = true
  · rw [if_pos h]
    left
    rw [List.isSuffixOf_iff_suffix] at h
    obtain ⟨t, rfl⟩ := h
    simp
  · rw [if_neg h]
    right
    refine ⟨rfl, ?_⟩
    rw [List.isSuffixOf_iff_suffix] at h
    exact h

/-- The separator bytes are the bytes of the literals "," and "\n" of the source. -/
theorem separators_eq : [comma] = bytes "," ∧ [newline] = bytes "\n" := by
  decide

/-- The white space characters, byte by byte. -/
theorem whiteSpace_eq :
    whiteSpace =
      [[0x09], [0x0a], [0x0b], [0x0c], [0x0d], [0x20], [0xc2, 0x85], [0xc2, 0xa0],
       [0xe1, 0x9a, 0x80], [0xe2, 0x80, 0x80], [0xe2, 0x80, 0x81], [0xe2, 0x80, 0x82],
       [0xe2, 0x80, 0x83], [0xe2, 0x80, 0x84], [0xe2, 0x80, 0x85], [0xe2, 0x80, 0x86],
       [0xe2, 0x80, 0x87], [0xe2, 0x80, 0x88], [0xe2, 0x80, 0x89], [0xe2, 0x80, 0x8a],
       [0xe2, 0x80, 0xa8], [0xe2, 0x80, 0xa9], [0xe2, 0x80, 0xaf], [0xe2, 0x81, 0x9f],
       [0xe3, 0x80, 0x80]] := by
  decide

/-- Trimming on examples: ASCII and non-ASCII white space goes, a stray byte
0xa0 (not the encoding of a character) stays, and inner white space stays. -/
theorem TrimSpace_examples :
    TrimSpace (bytes " \t batch \r\n") = bytes "batch" ∧
    TrimSpace ([0xc2, 0xa0] ++ bytes "a b" ++ [0xe2, 0x80, 0x83, 0xe3, 0x80, 0x80]) = bytes "a b" ∧
    TrimSpace (bytes "b" ++ [0xa0]) = bytes "b" ++ [0xa0] ∧
    TrimSpace (bytes " \n ") = [] := by
  decide

/-- Validity on examples: ASCII and well-formed sequences of two, three and four
bytes are valid; a byte 0xff, an overlong form, a surrogate and a truncated
sequence are not. -/
theorem ValidString_examples :
    ValidString (bytes "batch") = true ∧ ValidString [0xc3, 0xa9] = true ∧
    ValidString [0xe2, 0x82, 0xac] = true ∧ ValidString [0xf0, 0x9d, 0x84, 0x9e] = true ∧
    ValidString (bytes "batch" ++ [0xff]) = false ∧ ValidString [0xc0, 0x80] = false ∧
    ValidString [0xed, 0xa0, 0x80] = false ∧ ValidString [0xe2, 0x82] = false := by
  decide

theorem whiteSpace_ne_nil : ∀ w ∈ whiteSpace, w ≠ [] := by decide

theorem trimLeftSpace_spec (n : Nat) (s : Str) (h : s.length ≤ n) :
    ∃ pre : List Str, (∀ w ∈ pre, w ∈ whiteSpace) ∧ s = pre.flatten ++ trimLeftSpace n s ∧
      ∀ w ∈ whiteSpace, ¬ w <+: trimLeftSpace n s := by
  induction n generalizing s with
  | zero =>
    have hs : s = [] := List.length_eq_zero.1 (Nat.le_zero.1 h)
    subst hs
    refine ⟨[], by simp, by simp [trimLeftSpace], ?_⟩
    intro w hw hp
    exact whiteSpace_ne_nil w hw (List.prefix_nil.1 hp)
  | succ n ih =>
    unfold trimLeftSpace
    cases hf : whiteSpace.find? (fun w => w.isPrefixOf s) with
    | none =>
      refine ⟨[], by simp, by simp, ?_⟩
      intro w hw hp
      have := List.find?_eq_none.1 hf w hw
      rw [List.isPrefixOf_iff_prefix] at this
      exact this hp
    | some w =>
      have hw : w ∈ whiteSpace := List.mem_of_find?_eq_some hf
      have hp : w <+: s := by
        have := List.find?_some hf
        simpa using this
      obtain ⟨t, rfl⟩ := hp
      have hlen : 0 < w.length := List.length_pos.2 (whiteSpace_ne_nil w hw)
      simp only [List.drop_left]
      obtain ⟨pre, h1, h2, h3⟩ := ih t (by simp at h; omega)
      refine ⟨w :: pre, ?_, ?_, h3⟩
      · intro x hx
        rcases List.mem_cons.1 hx with rfl | hx
        · exact hw
        · exact h1 x hx
      · rw [List.flatten_cons, List.append_assoc, ← h2]

theorem trimRightSpace_spec (n : Nat) (s : Str) (h : s.length ≤ n) :
    ∃ post : List Str, (∀ w ∈ post, w ∈ whiteSpace) ∧ s = trimRightSpace n s ++ post.flatten ∧
      ∀ w ∈ whiteSpace, ¬ w <:+ trimRightSpace n s := by
  induction n generalizing s with
  | zero =>
    have hs : s = [] := List.length_eq_zero.1 (Nat.le_zero.1 h)
    subst hs
    refine ⟨[], by simp, by simp [trimRightSpace], ?_⟩
    intro w hw hp
    exact whiteSpace_ne_nil w hw (List.suffix_nil.1 hp)
  | succ n ih =>
    unfold trimRightSpace
    cases hf : whiteSpace.find? (fun w => w.isSuffixOf s) with
    | none =>
      refine ⟨[], by simp, by simp, ?_⟩
      intro w hw hp
      have := List.find?_eq_none.1 hf w hw
      rw [List.isSuffixOf_iff_suffix] at this
      exact this hp
    | some w =>
      have hw : w ∈ whiteSpace := List.mem_of_find?_eq_some hf
      have hp : w <:+ s := by
        have := List.find?_some hf
        simpa using this
      obtain ⟨t, rfl⟩ := hp
      have hlen : 0 < w.length := List.length_pos.2 (whiteSpace_ne_nil w hw)
      have ht : (t ++ w).take ((t ++ w).length - w.length) = t := by simp
      simp only [ht]
      obtain ⟨post, h1, h2, h3⟩ := ih t (by simp at h; omega)
      refine ⟨post ++ [w], ?_, ?_, h3⟩
      · intro x hx
        rcases List.mem_append.1 hx with hx | hx
        · exact h1 x hx
        · rw [List.mem_singleton.1 hx]
          exact hw
      · rw [List.flatten_append, ← List.append_assoc, ← h2]
        simp

theorem TrimSpace_trimmed (s : Str) : SpaceTrimmed s (TrimSpace s) := by
  unfold TrimSpace
  obtain ⟨pre, hpre, e1, hl⟩ := trimLeftSpace_spec s.length s (Nat.le_refl _)
  generalize trimLeftSpace s.length s = t at e1 hl
  have hlen : t.length ≤ s.length := by
    rw [e1]
    simp
  obtain ⟨post, hpost, e2, hr⟩ := trimRightSpace_spec s.length t hlen
  generalize trimRightSpace s.length t = u at e2 hr
  refine ⟨pre, post, hpre, hpost, ?_, ?_, hr⟩
  · rw [List.append_assoc, ← e2, ← e1]
  · intro w hw hp
    apply hl w hw
    rw [e2]
    exact hp.trans (List.prefix_append _ _)

theorem Contains_iff (s : Str) (c : UInt8) : Contains s c = true ↔ c ∈ s := by
  unfold Contains
  rw [List.any_eq_true]
  constructor
  · rintro ⟨x, hx, hxc⟩
    rw [beq_iff_eq] at hxc
    exact hxc ▸ hx
  · intro h
    exact ⟨c, h, by simp⟩

/-- A line without a comma is a single field. -/
theorem Split_noComma (line : Str) (h : Contains line comma = false) :
    Split line comma = [line] := by
  apply Split_of_not_mem
  intro hm
  rw [(Contains_iff line comma).2 hm] at h
  cases h

/-- A line with a field 1 has a comma. -/
theorem Contains_of_field1 (line st : Str) (h : (Split line comma)[1]? = some st) :
    Contains line comma = true := by
  by_contra hc
  simp only [Bool.not_eq_true] at hc
  rw [Split_noComma line hc] at h
  cases h

/-! ## Lemmas on maps -/

theorem mapLookup_mapAssign (m : GoMap) (k q : Str) (v : Nat) :
    mapLookup (mapAssign m k v) q = if k = q then some v else mapLookup m q := by
  induction m with
  | nil => simp [mapAssign, mapLookup]
  | cons e m ih =>
    obtain ⟨k1, v1⟩ := e
    by_cases h1 : k1 = k
    · subst h1
      by_cases h2 : k1 = q <;> simp [mapAssign, mapLookup, h2]
    · by_cases h2 : k1 = q
      · subst h2
        have h3 : ¬ k = k1 := fun h => h1 h.symm
        simp [mapAssign, mapLookup, h1, h3]
      · simp [mapAssign, mapLookup, h1, h2, ih]

theorem mapLookup_mapIncr (m : GoMap) (k q : Str) :
    mapLookup (mapIncr m k) q = if k = q then some (mapIndex m k + 1) else mapLookup m q := by
  simp [mapIncr, mapLookup_mapAssign]

theorem mapLookup_foldl_assign (keys : List Str) (m : GoMap) (p : Str) :
    mapLookup (keys.foldl (fun out k => mapAssign out k 0) m) p =
      if p ∈ keys then some 0 else mapLookup m p := by
  induction keys generalizing m with
  | nil => simp
  | cons k keys ih =>
    simp only [List.foldl_cons, ih, mapLookup_mapAssign, List.mem_cons]
    by_cases h1 : p ∈ keys
    · simp [h1]
    · by_cases h2 : k = p
      · simp [h2]
      · have h3 : ¬ p = k := fun h => h2 h.symm
        simp [h1, h2, h3]

theorem mapLookup_initMap (keys : List Str) (p : Str) :
    mapLookup (initMap keys) p = if p ∈ keys then some 0 else none := by
  simp [initMap, mapLookup_foldl_assign, mapLookup]

theorem mem_mapKeys_iff (m : GoMap) (p : Str) :
    p ∈ mapKeys m ↔ mapLookup m p ≠ none := by
  induction m with
  | nil => simp [mapKeys, mapLookup]
  | cons e m ih =>
    obtain ⟨k1, v1⟩ := e
    by_cases h : k1 = p
    · simp [mapKeys, mapLookup, h]
    · have h3 : ¬ p = k1 := fun h2 => h h2.symm
      simp only [mapKeys] at ih
      simp [mapKeys, mapLookup, h, h3, ih]

/-! ## One line -/

theorem parseLine_noComma (qm : QueueMetrics) (line : Str) (h : Contains line comma = false) :
    parseLine qm line = some qm := by
  simp [parseLine, h]

/-- The guard `len(splitted) > 2` adds nothing to the test on `splitted[2]`. -/
theorem guard_iff (l : List Str) (d : Str) :
    (l.length > 2 ∧ l[2]? = some d) ↔ l[2]? = some d := by
  constructor
  · exact fun h => h.2
  · intro h
    refine ⟨?_, h⟩
    by_contra hlen
    rw [List.getElem?_eq_none (by omega)] at h
    cases h

/-- What one line with a state field `st` and a partition field `q` does to each
table: the table that counts the line has `q` incremented, the others are as
they were. -/
theorem parseLine_table {qm qm1 : QueueMetrics} {line st q : Str}
    (h1 : (Split line comma)[1]? = some st) (h3 : (Split line comma)[3]? = some q)
    (h : parseLine qm line = some qm1) (T : Table) :
    qm1.table T =
      if (st == T.state &&
          (T != .pending_dep || (Split line comma)[2]? == some (bytes "Dependency"))) = true
      then mapIncr (qm.table T) q else qm.table T := by
  unfold parseLine at h
  rw [if_pos (Contains_of_field1 line st h1)] at h
  simp only [h1, h3, guard_iff] at h
  generalize (bytes "Dependency") = dep at h ⊢
  by_cases c0 : st = bytes "PENDING"
  · rw [if_pos c0] at h
    subst c0
    by_cases cd : (Split line comma)[2]? = some dep
    · rw [if_pos cd] at h
      cases h
      cases T <;> simp +decide [QueueMetrics.table, Table.state, cd]
    · rw [if_neg cd] at h
      cases h
      cases T <;> simp +decide [QueueMetrics.table, Table.state, cd]
  rw [if_neg c0] at h
  by_cases c1 : st = bytes "RUNNING"
  · rw [if_pos c1] at h
    subst c1
    cases h
    cases T <;> simp +decide [QueueMetrics.table, Table.state]
  rw [if_neg c1] at h
  by_cases c2 : st = bytes "SUSPENDED"
  · rw [if_pos c2] at h
    subst c2
    cases h
    cases T <;> simp +decide [QueueMetrics.table, Table.state]
  rw [if_neg c2] at h
  by_cases c3 : st = bytes "CANCELLED"
  · rw [if_pos c3] at h
    subst c3
    cases h
    cases T <;> simp +decide [QueueMetrics.table, Table.state]
  rw [if_neg c3] at h
  by_cases c4 : st = bytes "COMPLETING"
  · rw [if_pos c4] at h
    subst c4
    cases h
    cases T <;> simp +decide [QueueMetrics.table, Table.state]
  rw [if_neg c4] at h
  by_cases c5 : st = bytes "COMPLETED"
  · rw [if_pos c5] at h
    subst c5
    cases h
    cases T <;> simp +decide [QueueMetrics.table, Table.state]
  rw [if_neg c5] at h
  by_cases c6 : st = bytes "CONFIGURING"
  · rw [if_pos c6] at h
    subst c6
    cases h
    cases T <;> simp +decide [QueueMetrics.table, Table.state]
  rw [if_neg c6] at h
  by_cases c7 : st = bytes "FAILED"
  · rw [if_pos c7] at h
    subst c7
    cases h
    cases T <;> simp +decide [QueueMetrics.table, Table.state]
  rw [if_neg c7] at h
  by_cases c8 : st = bytes "TIMEOUT"
  · rw [if_pos c8] at h
    subst c8
    cases h
    cases T <;> simp +decide [QueueMetrics.table, Table.state]
  rw [if_neg c8] at h
  by_cases c9 : st = bytes "PREEMPTED"
  · rw [if_pos c9] at h
    subst c9
    cases h
    cases T <;> simp +decide [QueueMetrics.table, Table.state]
  rw [if_neg c9] at h
  by_cases c10 : st = bytes "NODE_FAIL"
  · rw [if_pos c10] at h
    subst c10
    cases h
    cases T <;> simp +decide [QueueMetrics.table, Table.state]
  rw [if_neg c10] at h
  cases h
  cases T <;> simp [Table.state, c0, c1, c2, c3, c4, c5, c6, c7, c8, c9, c10]

/-- What one line does to each table, as seen through `mapLookup`. -/
theorem parseLine_lookup {qm qm1 : QueueMetrics} {line : Str}
    (h : parseLine qm line = some qm1) (T : Table) (p : Str) :
    mapLookup (qm1.table T) p =
      if matchesTable T p line then some (mapIndex (qm.table T) p + 1)
      else mapLookup (qm.table T) p := by
  by_cases hc : Contains line comma = true
  · cases h1 : (Split line comma)[1]? with
    | none => simp [parseLine, hc, h1] at h
    | some st =>
      cases h3 : (Split line comma)[3]? with
      | none => simp [parseLine, hc, h1, h3] at h
      | some q =>
        have hm : matchesTable T p line = ((st == T.state &&
            (T != .pending_dep || (Split line comma)[2]? == some (bytes "Dependency"))) &&
              q == p) := by
          have e1 : (some st == some T.state) = (st == T.state) := rfl
          have e3 : (some q == some p) = (q == p) := rfl
          simp only [matchesTable, isRecord, h1, h3, e1, e3]
          generalize (st == T.state) = x
          generalize (q == p) = y
          generalize (T != .pending_dep ||
            (Split line comma)[2]? == some (bytes "Dependency")) = z
          cases x <;> cases y <;> cases z <;> rfl
        rw [hm, parseLine_table h1 h3 h T]
        generalize (st == T.state &&
          (T != .pending_dep || (Split line comma)[2]? == some (bytes "Dependency"))) = b
        by_cases hq : q = p
        · subst hq
          cases b <;> simp [mapLookup_mapIncr]
        · cases b <;> simp [mapLookup_mapIncr, hq]
  · simp only [Bool.not_eq_true] at hc
    rw [parseLine_noComma qm line hc] at h
    cases h
    simp [matchesTable, isRecord, Split_noComma line hc]

theorem ite_isSome {α : Type} {c : Prop} [Decidable c] {a b : Option α}
    (ha : a.isSome = true) (hb : b.isSome = true) : (if c then a else b).isSome = true := by
  split <;> assumption

/-- A line with a comma and four fields never panics. -/
theorem parseLine_isSome (qm : QueueMetrics) (line : Str)
    (h : Contains line comma = true → 4 ≤ (Split line comma).length) :
    ∃ qm1, parseLine qm line = some qm1 := by
  by_cases hc : Contains line comma = true
  · have hlen := h hc
    obtain ⟨st, h1⟩ : ∃ st, (Split line comma)[1]? = some st :=
      ⟨(Split line comma)[1], List.getElem?_eq_getElem (by omega)⟩
    obtain ⟨q, h3⟩ : ∃ q, (Split line comma)[3]? = some q :=
      ⟨(Split line comma)[3], List.getElem?_eq_getElem (by omega)⟩
    unfold parseLine
    rw [if_pos hc]
    simp only [h1, h3]
    rw [← Option.isSome_iff_exists]
    repeat' apply ite_isSome
    all_goals rfl
  · simp only [Bool.not_eq_true] at hc
    exact ⟨qm, parseLine_noComma qm line hc⟩

/-- A line with a comma and fewer than four fields panics. -/
theorem parseLine_short (qm : QueueMetrics) (line : Str)
    (hc : Contains line comma = true) (hlen : (Split line comma).length < 4) :
    parseLine qm line = none := by
  have h3 : (Split line comma)[3]? = none := List.getElem?_eq_none (by omega)
  unfold parseLine
  rw [if_pos hc]
  simp only [h3]
  cases (Split line comma)[1]? <;> rfl

theorem parseLine_isSome_iff (qm : QueueMetrics) (line : Str) :
    (∃ qm1, parseLine qm line = some qm1) ↔
      (Contains line comma = true → 4 ≤ (Split line comma).length) := by
  constructor
  · rintro ⟨qm1, h⟩ hc
    by_contra hlen
    rw [parseLine_short qm line hc (by omega)] at h
    cases h
  · exact parseLine_isSome qm line

/-! ## The loop over the lines -/

theorem parseLines_isSome_iff (qm : QueueMetrics) (lines : List Str) :
    (∃ qm1, parseLines qm lines = some qm1) ↔ WellFormed lines := by
  induction lines generalizing qm with
  | nil => simp [parseLines, WellFormed]
  | cons line lines ih =>
    constructor
    · rintro ⟨qm1, h⟩
      unfold parseLines at h
      cases h1 : parseLine qm line with
      | none => simp [h1] at h
      | some qm2 =>
        simp only [h1] at h
        have hl := (parseLine_isSome_iff qm line).1 ⟨qm2, h1⟩
        have hls := (ih qm2).1 ⟨qm1, h⟩
        intro l hl2
        rcases List.mem_cons.1 hl2 with rfl | hl3
        · exact hl
        · exact hls l hl3
    · intro hw
      obtain ⟨qm2, h1⟩ := parseLine_isSome qm line (hw line (List.mem_cons_self _ _))
      obtain ⟨qm1, h2⟩ := (ih qm2).2 (fun l hl => hw l (List.mem_cons_of_mem _ hl))
      exact ⟨qm1, by simp [parseLines, h1, h2]⟩

/-- The tables after the loop, as seen through `mapLookup`: a key is present
when it was present before or a line matches it, and its count has grown by
the number of matching lines. -/
theorem parseLines_lookup {qm qm1 : QueueMetrics} {lines : List Str}
    (h : parseLines qm lines = some qm1) (T : Table) (p : Str) :
    mapLookup (qm1.table T) p =
      if lines.countP (matchesTable T p) = 0 then mapLookup (qm.table T) p
      else some (mapIndex (qm.table T) p + lines.countP (matchesTable T p)) := by
  induction lines generalizing qm with
  | nil =>
    simp only [parseLines, Option.some.injEq] at h
    subst h
    simp
  | cons line lines ih =>
    unfold parseLines at h
    cases h1 : parseLine qm line with
    | none => simp [h1] at h
    | some qm2 =>
      simp only [h1] at h
      have e1 := parseLine_lookup h1 T p
      rw [ih h]
      by_cases hm : matchesTable T p line = true
      · rw [if_pos hm] at e1
        have e2 : mapIndex (qm2.table T) p = mapIndex (qm.table T) p + 1 := by
          simp [mapIndex, e1]
        rw [List.countP_cons_of_pos _ _ hm, e1, e2]
        by_cases hz : List.countP (matchesTable T p) lines = 0
        · simp [hz]
        · simp [hz]
          omega
      · rw [if_neg hm] at e1
        have e2 : mapIndex (qm2.table T) p = mapIndex (qm.table T) p := by
          simp [mapIndex, e1]
        rw [List.countP_cons_of_neg _ _ hm, e1, e2]

/-! ## The parser -/

theorem ParseQueueMetrics_isSome_iff (input : Str) (partition : List Str) :
    (∃ qm, ParseQueueMetrics input partition = some qm) ↔ WellFormed (Split input newline) := by
  unfold ParseQueueMetrics
  exact parseLines_isSome_iff _ _

theorem initial_table (partition : List Str) (T : Table) :
    (QueueMetrics.mk (initMap partition) (initMap partition) (initMap partition)
      (initMap partition) (initMap partition) (initMap partition) (initMap partition)
      (initMap partition) (initMap partition) (initMap partition) (initMap partition)
      (initMap partition)).table T = initMap partition := by
  cases T <;> rfl

/-- Every table of the returned snapshot: the key `p` is present exactly when
`p` is a listed partition or some line matches, and its count is the number of
matching lines. -/
theorem ParseQueueMetrics_lookup {input : Str} {partition : List Str} {qm : QueueMetrics}
    (h : ParseQueueMetrics input partition = some qm) (T : Table) (p : Str) :
    mapLookup (qm.table T) p =
      if p ∈ partition ∨ 0 < (Split input newline).countP (matchesTable T p)
      then some ((Split input newline).countP (matchesTable T p)) else none := by
  unfold ParseQueueMetrics at h
  rw [parseLines_lookup h T p, initial_table, mapIndex, mapLookup_initMap]
  generalize List.countP (matchesTable T p) (Split input newline) = n
  by_cases hp : p ∈ partition <;> rcases Nat.eq_zero_or_pos n with hn | hn
  · simp [hp, hn]
  · simp [hp, Nat.pos_iff_ne_zero.1 hn]
  · simp [hp, hn]
  · simp [hp, hn, Nat.pos_iff_ne_zero.1 hn]

theorem ParseQueueMetrics_index {input : Str} {partition : List Str} {qm : QueueMetrics}
    (h : ParseQueueMetrics input partition = some qm) (T : Table) (p : Str) :
    mapIndex (qm.table T) p = (Split input newline).countP (matchesTable T p) := by
  rw [mapIndex, ParseQueueMetrics_lookup h T p]
  generalize List.countP (matchesTable T p) (Split input newline) = n
  by_cases hp : p ∈ partition <;> rcases Nat.eq_zero_or_pos n with hn | hn
  · simp [hp, hn]
  · simp [hp]
  · simp [hp, hn]
  · simp [hp, hn]

/-! ## The tables are maps: no key occurs twice -/

theorem mapKeys_mapAssign (m : GoMap) (k : Str) (v : Nat) :
    mapKeys (mapAssign m k v) = if k ∈ mapKeys m then mapKeys m else mapKeys m ++ [k] := by
  induction m with
  | nil => simp [mapAssign, mapKeys]
  | cons e m ih =>
    obtain ⟨k1, v1⟩ := e
    simp only [mapKeys] at ih
    by_cases h1 : k1 = k
    · simp [mapAssign, mapKeys, h1]
    · have h2 : ¬ k = k1 := fun e => h1 e.symm
      by_cases h3 : k ∈ List.map Prod.fst m
      · simp [mapAssign, mapKeys, h1, h2, h3, ih]
      · simp [mapAssign, mapKeys, h1, h2, h3, ih]

theorem nodup_mapAssign (m : GoMap) (k : Str) (v : Nat) (h : (mapKeys m).Nodup) :
    (mapKeys (mapAssign m k v)).Nodup := by
  rw [mapKeys_mapAssign]
  split
  · exact h
  · rename_i hk
    rw [List.nodup_append]
    exact ⟨h, List.nodup_singleton k, by simpa using hk⟩

theorem nodup_initMap (keys : List Str) : (mapKeys (initMap keys)).Nodup := by
  unfold initMap
  have : ∀ m : GoMap, (mapKeys m).Nodup →
      (mapKeys (keys.foldl (fun out k => mapAssign out k 0) m)).Nodup := by
    induction keys with
    | nil => exact fun m hm => hm
    | cons k keys ih => exact fun m hm => ih _ (nodup_mapAssign m k 0 hm)
  exact this [] (by simp [mapKeys])

theorem parseLine_nodup {qm qm1 : QueueMetrics} {line : Str}
    (h : parseLine qm line = some qm1) (hn : ∀ T, (mapKeys (qm.table T)).Nodup) (T : Table) :
    (mapKeys (qm1.table T)).Nodup := by
  by_cases hc : Contains line comma = true
  · cases h1 : (Split line comma)[1]? with
    | none => simp [parseLine, hc, h1] at h
    | some st =>
      cases h3 : (Split line comma)[3]? with
      | none => simp [parseLine, hc, h1, h3] at h
      | some q =>
        rw [parseLine_table h1 h3 h T]
        split
        · exact nodup_mapAssign _ _ _ (hn T)
        · exact hn T
  · simp only [Bool.not_eq_true] at hc
    rw [parseLine_noComma qm line hc] at h
    cases h
    exact hn T

theorem parseLines_nodup {qm qm1 : QueueMetrics} {lines : List Str}
    (h : parseLines qm lines = some qm1) (hn : ∀ T, (mapKeys (qm.table T)).Nodup) (T : Table) :
    (mapKeys (qm1.table T)).Nodup := by
  induction lines generalizing qm with
  | nil =>
    simp only [parseLines, Option.some.injEq] at h
    subst h
    exact hn T
  | cons line lines ih =>
    unfold parseLines at h
    cases h1 : parseLine qm line with
    | none => simp [h1] at h
    | some qm2 =>
      simp only [h1] at h
      exact ih h (parseLine_nodup h1 hn)

/-- In a snapshot the parser returns, no table has a key twice: the association
lists are maps, and a `range` over a table visits each partition once. -/
theorem ParseQueueMetrics_nodup {input : Str} {partition : List Str} {qm : QueueMetrics}
    (h : ParseQueueMetrics input partition = some qm) (T : Table) :
    (mapKeys (qm.table T)).Nodup := by
  unfold ParseQueueMetrics at h
  refine parseLines_nodup h ?_ T
  intro T1
  rw [initial_table]
  exact nodup_initMap partition

/-! ## Lemmas for the statements -/

/-- Every listed partition is a key of every table of the returned snapshot. -/
theorem listed_mem_mapKeys {input : Str} {partition : List Str} {qm : QueueMetrics}
    (h : ParseQueueMetrics input partition = some qm) (T : Table) (p : Str)
    (hp : p ∈ partition) : p ∈ mapKeys (qm.table T) := by
  rw [mem_mapKeys_iff, ParseQueueMetrics_lookup h T p, if_pos (Or.inl hp)]
  simp

theorem primaryStates_spec {s : Str} {T : Table} (h : (s, T) ∈ primaryStates) :
    T ≠ .pending_dep ∧ T.state = s := by
  simp only [primaryStates, List.mem_cons, Prod.mk.injEq, List.mem_singleton, List.not_mem_nil,
    or_false] at h
  rcases h with h | h | h | h | h | h | h | h | h | h | h <;> obtain ⟨rfl, rfl⟩ := h <;>
    exact ⟨by decide, rfl⟩

theorem matchesTable_primary {s : Str} {T : Table} (h : (s, T) ∈ primaryStates) (p : Str) :
    matchesTable T p = isRecord s p := by
  obtain ⟨h1, h2⟩ := primaryStates_spec h
  funext line
  subst h2
  cases T <;> first | exact absurd rfl h1 | simp [matchesTable]

theorem WellFormed_perm {a b : List Str} (h : a.Perm b) (hw : WellFormed a) : WellFormed b :=
  fun line hl => hw line (h.mem_iff.2 hl)

/-- A line counted in `pending_dep` is counted in `pending`. -/
theorem matches_pending_of_dep (p line : Str) (h : matchesTable .pending_dep p line = true) :
    matchesTable .pending p line = true := by
  simp only [matchesTable, Table.state, Bool.and_eq_true, Bool.or_eq_true] at h ⊢
  exact ⟨h.1, Or.inl (by decide)⟩

/-! ## The claims -/

/-- C1 (fails on the code): the two-field line "1,PENDING" is not skipped. On it
`ParseQueueMetrics` panics at `splitted[3]` (index out of range), although the
same input without that line, the empty input, gives a snapshot. -/
theorem ParseQueueMetrics_two_field_line_panics :
    ParseQueueMetrics (bytes "1,PENDING") [bytes "batch"] = none ∧
      (ParseQueueMetrics (bytes "") [bytes "batch"]).isSome = true := by
  decide

/-- C2: when every line with a comma has at least four fields, `ParseQueueMetrics`
returns a snapshot in which, for each of the eleven primary states `s` (with its
table `T`) and every partition name `p`, the count `m[p]` of the table is the
number of input lines whose field 1 is `s` and whose field 3 is `p`. -/
theorem ParseQueueMetrics_counts_records (input : Str) (partition : List Str)
    (hwf : WellFormed (Split input newline)) :
    ∃ qm, ParseQueueMetrics input partition = some qm ∧
      ∀ s T, (s, T) ∈ primaryStates → ∀ p : Str,
        mapIndex (qm.table T) p = ((Split input newline).filter (isRecord s p)).length := by
  obtain ⟨qm, h⟩ := (ParseQueueMetrics_isSome_iff input partition).2 hwf
  refine ⟨qm, h, ?_⟩
  intro s T hs p
  rw [ParseQueueMetrics_index h T p, matchesTable_primary hs p, List.countP_eq_length_filter]

/-- Scenario A of the specification, an instance of C2: partitions "batch" and
"gpu" with one dependent pending job and one other pending job in "batch" and one
running job in "gpu". -/
theorem ParseQueueMetrics_counts_records_witness :
    ParseQueueMetrics
        (bytes "1,PENDING,Dependency,batch\n2,RUNNING,None,gpu\n3,PENDING,Resources,batch")
        [bytes "batch", bytes "gpu"] =
      some
        { pending := [(bytes "batch", 2), (bytes "gpu", 0)]
          pending_dep := [(bytes "batch", 1), (bytes "gpu", 0)]
          running := [(bytes "batch", 0), (bytes "gpu", 1)]
          suspended := [(bytes "batch", 0), (bytes "gpu", 0)]
          cancelled := [(bytes "batch", 0), (bytes "gpu", 0)]
          completing := [(bytes "batch", 0), (bytes "gpu", 0)]
          completed := [(bytes "batch", 0), (bytes "gpu", 0)]
          configuring := [(bytes "batch", 0), (bytes "gpu", 0)]
          failed := [(bytes "batch", 0), (bytes "gpu", 0)]
          timeout := [(bytes "batch", 0), (bytes "gpu", 0)]
          preempted := [(bytes "batch", 0), (bytes "gpu", 0)]
          node_fail := [(bytes "batch", 0), (bytes "gpu", 0)] } ∧
    WellFormed (Split
        (bytes "1,PENDING,Dependency,batch\n2,RUNNING,None,gpu\n3,PENDING,Resources,batch") newline) ∧
    ∃ qm, ParseQueueMetrics
        (bytes "1,PENDING,Dependency,batch\n2,RUNNING,None,gpu\n3,PENDING,Resources,batch")
        [bytes "batch", bytes "gpu"] = some qm ∧
      ∀ s T, (s, T) ∈ primaryStates → ∀ p : Str,
        mapIndex (qm.table T) p = ((Split
          (bytes "1,PENDING,Dependency,batch\n2,RUNNING,None,gpu\n3,PENDING,Resources,batch")
          newline).filter (isRecord s p)).length :=
  ⟨by decide, by unfold WellFormed; decide,
    ParseQueueMetrics_counts_records _ _ (by unfold WellFormed; decide)⟩

/-- C3 (density invariant): in a snapshot `ParseQueueMetrics` returns, each of
the twelve tables has a key for every partition of the supplied list; at a
listed partition that no line of the input matches, the count is present and 0;
and at any partition name that no line matches, the count reads 0. -/
theorem ParseQueueMetrics_density (input : Str) (partition : List Str) (qm : QueueMetrics)
    (h : ParseQueueMetrics input partition = some qm) :
    (∀ (T : Table) (p : Str), p ∈ partition → p ∈ mapKeys (qm.table T)) ∧
    (∀ (T : Table) (p : Str), p ∈ partition →
      (∀ line ∈ Split input newline, matchesTable T p line = false) →
      mapLookup (qm.table T) p = some 0) ∧
    (∀ (T : Table) (p : Str),
      (∀ line ∈ Split input newline, matchesTable T p line = false) →
      mapIndex (qm.table T) p = 0) := by
  have hz : ∀ (T : Table) (p : Str),
      (∀ line ∈ Split input newline, matchesTable T p line = false) →
      (Split input newline).countP (matchesTable T p) = 0 := by
    intro T p hno
    rw [List.countP_eq_zero]
    intro line hl
    simp [hno line hl]
  refine ⟨fun T p hp => listed_mem_mapKeys h T p hp, ?_, ?_⟩
  · intro T p hp hno
    rw [ParseQueueMetrics_lookup h T p, if_pos (Or.inl hp), hz T p hno]
  · intro T p hno
    rw [ParseQueueMetrics_index h T p, hz T p hno]

/-- Scenario B of the specification, an instance of C3: on the empty input with
the partition list ["batch"], every table has the key "batch" with count 0. -/
theorem ParseQueueMetrics_density_witness :
    ∃ qm, ParseQueueMetrics [] [bytes "batch"] = some qm ∧
      ∀ T : Table, (bytes "batch") ∈ mapKeys (qm.table T) ∧
        mapLookup (qm.table T) (bytes "batch") = some 0 :=
  ⟨_, rfl, fun T =>
    ⟨(ParseQueueMetrics_density [] [bytes "batch"] _ rfl).1 T _ (by decide),
     (ParseQueueMetrics_density [] [bytes "batch"] _ rfl).2.1 T _ (by decide) (by
        intro line hl
        have : line = [] := by simpa [Split] using hl
        subst this
        cases T <;> decide)⟩⟩

/-- C9: in a snapshot `ParseQueueMetrics` returns, at every partition name the
count of `pending_dep` is at most the count of `pending`, and every key of
`pending_dep` is a key of `pending`. -/
theorem ParseQueueMetrics_pending_dep_le_pending (input : Str) (partition : List Str) (qm : QueueMetrics)
    (h : ParseQueueMetrics input partition = some qm) (p : Str) :
    mapIndex qm.pending_dep p ≤ mapIndex qm.pending p ∧
      (p ∈ mapKeys qm.pending_dep → p ∈ mapKeys qm.pending) := by
  have hle : (Split input newline).countP (matchesTable .pending_dep p) ≤
      (Split input newline).countP (matchesTable .pending p) :=
    List.countP_mono_left (fun line _ hm => matches_pending_of_dep p line hm) 
  have e1 := ParseQueueMetrics_index h .pending_dep p
  have e2 := ParseQueueMetrics_index h .pending p
  have l1 := ParseQueueMetrics_lookup h .pending_dep p
  have l2 := ParseQueueMetrics_lookup h .pending p
  simp only [QueueMetrics.table] at e1 e2 l1 l2
  refine ⟨by omega, ?_⟩
  rw [mem_mapKeys_iff, mem_mapKeys_iff, l1, l2]
  intro hk
  by_cases hc : p ∈ partition ∨ 0 < (Split input newline).countP (matchesTable .pending_dep p)
  · have hc2 : p ∈ partition ∨ 0 < (Split input newline).countP (matchesTable .pending p) := by
      rcases hc with hc | hc
      · exact Or.inl hc
      · exact Or.inr (by omega)
    rw [if_pos hc2]
    simp
  · rw [if_neg hc] at hk
    exact absurd rfl hk

/-- An instance of C9 on scenario A of the specification. -/
theorem ParseQueueMetrics_pending_dep_le_pending_witness :
    ∃ qm, ParseQueueMetrics
        (bytes "1,PENDING,Dependency,batch\n2,RUNNING,None,gpu\n3,PENDING,Resources,batch")
        [bytes "batch", bytes "gpu"] = some qm ∧
      mapIndex qm.pending_dep (bytes "batch") = 1 ∧ mapIndex qm.pending (bytes "batch") = 2 ∧
      mapIndex qm.pending_dep (bytes "batch") ≤ mapIndex qm.pending (bytes "batch") ∧
      ((bytes "batch") ∈ mapKeys qm.pending_dep → (bytes "batch") ∈ mapKeys qm.pending) :=
  ⟨_, rfl, by decide, by decide,
    ParseQueueMetrics_pending_dep_le_pending
      (bytes "1,PENDING,Dependency,batch\n2,RUNNING,None,gpu\n3,PENDING,Resources,batch")
      [bytes "batch", bytes "gpu"] _ rfl (bytes "batch")⟩

/-- C10 (order independence): when the lines of two inputs are permutations of
each other and every line with a comma has at least four fields,
`ParseQueueMetrics` returns on both, with the same keys and the same counts in
all twelve tables. -/
theorem ParseQueueMetrics_order_independent (input1 input2 : Str) (partition : List Str)
    (hperm : (Split input1 newline).Perm (Split input2 newline))
    (hwf : WellFormed (Split input1 newline)) :
    ∃ qm1 qm2, ParseQueueMetrics input1 partition = some qm1 ∧
      ParseQueueMetrics input2 partition = some qm2 ∧ qm1.same qm2 := by
  obtain ⟨qm1, h1⟩ := (ParseQueueMetrics_isSome_iff input1 partition).2 hwf
  obtain ⟨qm2, h2⟩ := (ParseQueueMetrics_isSome_iff input2 partition).2 (WellFormed_perm hperm hwf)
  refine ⟨qm1, qm2, h1, h2, ?_⟩
  intro T p
  rw [ParseQueueMetrics_lookup h1 T p, ParseQueueMetrics_lookup h2 T p, hperm.countP_eq]

/-- An instance of C10: two jobs of a partition that is not listed, in the two orders. -/
theorem ParseQueueMetrics_order_independent_witness :
    (Split (bytes "1,RUNNING,None,gpu\n2,RUNNING,None,batch") newline).Perm
        (Split (bytes "2,RUNNING,None,batch\n1,RUNNING,None,gpu") newline) ∧
    ∃ qm1 qm2,
      ParseQueueMetrics (bytes "1,RUNNING,None,gpu\n2,RUNNING,None,batch") [] = some qm1 ∧
      ParseQueueMetrics (bytes "2,RUNNING,None,batch\n1,RUNNING,None,gpu") [] = some qm2 ∧
      qm1.same qm2 :=
  ⟨by decide, ParseQueueMetrics_order_independent _ _ [] (by decide) (by unfold WellFormed; decide)⟩

/-- C4: a line whose field 1 is "PENDING", whose field 2 is `reason` and whose
field 3 is `p` is processed without panic; it raises the `pending` count of `p`
by 1; it raises the `pending_dep` count of `p` by 1 when `reason` is
"Dependency" and otherwise leaves the `pending_dep` table at `p` as it was; and
at every other pair of a table and a partition name nothing changes. -/
theorem parseLine_pending_increments (qm : QueueMetrics) (line reason p : Str)
    (hstate : (Split line comma)[1]? = some (bytes "PENDING"))
    (hreason : (Split line comma)[2]? = some reason)
    (hpart : (Split line comma)[3]? = some p) :
    ∃ qm1, parseLine qm line = some qm1 ∧
      mapIndex qm1.pending p = mapIndex qm.pending p + 1 ∧
      (reason = bytes "Dependency" →
        mapIndex qm1.pending_dep p = mapIndex qm.pending_dep p + 1) ∧
      (reason ≠ bytes "Dependency" →
        mapLookup qm1.pending_dep p = mapLookup qm.pending_dep p) ∧
      (∀ (T : Table) (q : Str), (T ≠ .pending ∧ T ≠ .pending_dep) ∨ q ≠ p →
        mapLookup (qm1.table T) q = mapLookup (qm.table T) q) := by
  have hlen : 4 ≤ (Split line comma).length := by
    by_contra hl
    rw [List.getElem?_eq_none (by omega)] at hpart
    cases hpart
  obtain ⟨qm1, h⟩ := parseLine_isSome qm line (fun _ => hlen)
  have hm : ∀ (T : Table) (q : Str), matchesTable T q line =
      ((bytes "PENDING") == T.state && p == q &&
        (T != .pending_dep || reason == bytes "Dependency")) := by
    intro T q
    simp [matchesTable, isRecord, hstate, hreason, hpart]
  refine ⟨qm1, h, ?_, ?_, ?_, ?_⟩
  · have e := parseLine_lookup h .pending p
    rw [hm] at e
    simp only [QueueMetrics.table] at e
    rw [mapIndex, e]
    simp [Table.state]
  · intro hr
    have e := parseLine_lookup h .pending_dep p
    rw [hm] at e
    simp only [QueueMetrics.table] at e
    rw [mapIndex, e]
    subst hr
    simp [Table.state]
  · intro hr
    have e := parseLine_lookup h .pending_dep p
    rw [hm] at e
    simp only [QueueMetrics.table] at e
    have hb : (reason == bytes "Dependency") = false := by
      rw [beq_eq_false_iff_ne]
      exact hr
    rw [hb] at e
    rw [e]
    simp
  · intro T q hTq
    rw [parseLine_lookup h T q, hm]
    rcases hTq with ⟨h1, h2⟩ | hq
    · cases T <;> first | exact absurd rfl h1 | exact absurd rfl h2 | simp +decide [Table.state]
    · have hb : (p == q) = false := by
        rw [beq_eq_false_iff_ne]
        exact fun e => hq e.symm
      simp [hb]

/-- Two instances of C4 on the snapshot whose tables are all empty: a dependent
pending job and a pending job waiting for resources. -/
theorem parseLine_pending_increments_witness :
    (∃ qm1, parseLine ⟨[], [], [], [], [], [], [], [], [], [], [], []⟩
        (bytes "1,PENDING,Dependency,batch") = some qm1 ∧
      mapIndex qm1.pending (bytes "batch") = 0 + 1 ∧ mapIndex qm1.pending_dep (bytes "batch") = 0 + 1) ∧
    (∃ qm1, parseLine ⟨[], [], [], [], [], [], [], [], [], [], [], []⟩
        (bytes "3,PENDING,Resources,batch") = some qm1 ∧
      mapIndex qm1.pending (bytes "batch") = 0 + 1 ∧ mapLookup qm1.pending_dep (bytes "batch") = none) := by
  obtain ⟨qa, ha, a1, a2, _, _⟩ := parseLine_pending_increments ⟨[], [], [], [], [], [], [], [], [], [], [], []⟩
    (bytes "1,PENDING,Dependency,batch") (bytes "Dependency") (bytes "batch")
    (by decide) (by decide) (by decide)
  obtain ⟨qb, hb, b1, _, b3, _⟩ := parseLine_pending_increments ⟨[], [], [], [], [], [], [], [], [], [], [], []⟩
    (bytes "3,PENDING,Resources,batch") (bytes "Resources") (bytes "batch")
    (by decide) (by decide) (by decide)
  exact ⟨⟨qa, ha, a1, a2 rfl⟩, ⟨qb, hb, b1, b3 (by decide)⟩⟩

/-- C5: when every line with a comma has at least four fields, a partition name
`q` that is not in the supplied list (so not a key of the initial tables) and
is the field 3 of some line whose field 1 is the primary state `s` is a key of
the table of `s` in the returned snapshot, with the number of such lines, at
least 1, as its count. -/
theorem ParseQueueMetrics_unlisted_partition (input : Str) (partition : List Str) (s : Str) (T : Table)
    (q : Str) (hwf : WellFormed (Split input newline)) (hs : (s, T) ∈ primaryStates)
    (hq : q ∉ partition) (hline : ∃ line ∈ Split input newline, isRecord s q line = true) :
    q ∉ mapKeys (initMap partition) ∧
    ∃ qm, ParseQueueMetrics input partition = some qm ∧
      q ∈ mapKeys (qm.table T) ∧
      mapLookup (qm.table T) q = some ((Split input newline).filter (isRecord s q)).length ∧
      1 ≤ ((Split input newline).filter (isRecord s q)).length := by
  obtain ⟨qm, h⟩ := (ParseQueueMetrics_isSome_iff input partition).2 hwf
  have hpos : 0 < (Split input newline).countP (isRecord s q) := by
    rw [List.countP_pos_iff]
    exact hline
  have hl := ParseQueueMetrics_lookup h T q
  rw [matchesTable_primary hs q, if_pos (Or.inr hpos), List.countP_eq_length_filter] at hl
  refine ⟨?_, qm, h, ?_, hl, ?_⟩
  · rw [mem_mapKeys_iff, mapLookup_initMap, if_neg hq]
    simp
  · rw [mem_mapKeys_iff, hl]
    simp
  · rw [← List.countP_eq_length_filter]
    exact hpos

/-- An instance of C5: a failed job of the partition "debug", which the
partition list ["batch"] does not have. -/
theorem ParseQueueMetrics_unlisted_partition_witness :
    (bytes "debug") ∉ [bytes "batch"] ∧
    (bytes "debug") ∉ mapKeys (initMap [bytes "batch"]) ∧
    ∃ qm, ParseQueueMetrics (bytes "5,FAILED,None,debug") [bytes "batch"] = some qm ∧
      (bytes "debug") ∈ mapKeys (qm.table .failed) ∧
      mapLookup (qm.table .failed) (bytes "debug") =
        some ((Split (bytes "5,FAILED,None,debug") newline).filter
          (isRecord (bytes "FAILED") (bytes "debug"))).length ∧
      1 ≤ ((Split (bytes "5,FAILED,None,debug") newline).filter
          (isRecord (bytes "FAILED") (bytes "debug"))).length :=
  ⟨by decide, ParseQueueMetrics_unlisted_partition (bytes "5,FAILED,None,debug") [bytes "batch"]
    (bytes "FAILED") .failed (bytes "debug") (by unfold WellFormed; decide) (by decide) (by decide)
    ⟨(bytes "5,FAILED,None,debug"), by decide, by decide⟩⟩

theorem parseLines_append (qm : QueueMetrics) (a b : List Str) :
    parseLines qm (a ++ b) =
      match parseLines qm a with
      | none => none
      | some qm1 => parseLines qm1 b := by
  induction a generalizing qm with
  | nil => simp [parseLines]
  | cons line a ih =>
    simp only [List.cons_append, parseLines]
    cases parseLine qm line with
    | none => rfl
    | some qm2 => exact ih qm2

/-- A line with four fields whose state is none of the eleven leaves the snapshot as it is. -/
theorem parseLine_unrecognized (qm : QueueMetrics) (line st : Str)
    (hlen : 4 ≤ (Split line comma).length)
    (h1 : (Split line comma)[1]? = some st)
    (hst : st ∉ primaryStates.map Prod.fst) :
    parseLine qm line = some qm := by
  obtain ⟨q, h3⟩ : ∃ q, (Split line comma)[3]? = some q :=
    ⟨(Split line comma)[3], List.getElem?_eq_getElem (by omega)⟩
  simp only [primaryStates, List.map_cons, List.map_nil, List.mem_cons, List.mem_singleton,
    List.not_mem_nil, or_false, not_or] at hst
  obtain ⟨c0, c1, c2, c3, c4, c5, c6, c7, c8, c9, c10⟩ := hst
  unfold parseLine
  rw [if_pos (Contains_of_field1 line st h1)]
  simp only [h1, h3]
  rw [if_neg c0, if_neg c1, if_neg c2, if_neg c3, if_neg c4, if_neg c5, if_neg c6, if_neg c7,
    if_neg c8, if_neg c9, if_neg c10]

/-- The loop on the lines of a joined text. -/
theorem parseLines_Split_joinLines (qm : QueueMetrics) (lines : List Str)
    (h : ∀ line ∈ lines, newline ∉ line) :
    parseLines qm (Split (joinLines lines) newline) = parseLines qm lines := by
  cases lines with
  | nil =>
    have : parseLine qm [] = some qm := parseLine_noComma qm [] rfl
    simp [joinLines, Split, parseLines, this]
  | cons line lines => rw [Split_joinLines _ (by simp) h]

/-- C6: a line with at least four fields whose field 1 is not exactly one of the
eleven state names is processed without panic and without any change of the
snapshot, and `ParseQueueMetrics` gives on the input the result it gives on the
input without that line. -/
theorem ParseQueueMetrics_unrecognized_state (input : Str) (partition : List Str) (pre post : List Str)
    (line st : Str) (hsplit : Split input newline = pre ++ line :: post)
    (hlen : 4 ≤ (Split line comma).length)
    (h1 : (Split line comma)[1]? = some st)
    (hst : st ∉ primaryStates.map Prod.fst) :
    (∀ qm, parseLine qm line = some qm) ∧
      ParseQueueMetrics input partition = ParseQueueMetrics (joinLines (pre ++ post)) partition := by
  have hline : ∀ qm, parseLine qm line = some qm :=
    fun qm => parseLine_unrecognized qm line st hlen h1 hst
  refine ⟨hline, ?_⟩
  have hnl : ∀ l ∈ pre ++ post, newline ∉ l := by
    intro l hl
    apply Split_not_mem input newline l
    rw [hsplit]
    rcases List.mem_append.1 hl with hl | hl
    · exact List.mem_append_left _ hl
    · exact List.mem_append_right _ (List.mem_cons_of_mem _ hl)
  unfold ParseQueueMetrics
  simp only
  rw [parseLines_Split_joinLines _ _ hnl, hsplit, parseLines_append, parseLines_append]
  cases parseLines _ pre with
  | none => rfl
  | some qm1 => simp [parseLines, hline qm1]

/-- An instance of C6: the state "Pending" is not the state "PENDING". -/
theorem ParseQueueMetrics_unrecognized_state_witness :
    (∀ qm, parseLine qm (bytes "2,Pending,None,batch") = some qm) ∧
      ParseQueueMetrics (bytes "1,RUNNING,None,batch\n2,Pending,None,batch\n3,FAILED,None,gpu")
          [bytes "batch"] =
        ParseQueueMetrics
          (joinLines ([bytes "1,RUNNING,None,batch"] ++ [bytes "3,FAILED,None,gpu"]))
          [bytes "batch"] :=
  ParseQueueMetrics_unrecognized_state
    (bytes "1,RUNNING,None,batch\n2,Pending,None,batch\n3,FAILED,None,gpu") [bytes "batch"]
    [bytes "1,RUNNING,None,batch"] [bytes "3,FAILED,None,gpu"]
    (bytes "2,Pending,None,batch") (bytes "Pending") (by decide) (by decide) (by decide) (by decide)

/-- C7: the lines of the captured output are its pieces between newlines (joined
by newlines they give the output back, and none contains a newline, so an
output ending in a newline has an empty last line); `PartitionInfo` gives one
entry per line, in the order of the lines, and each entry is its line without
one trailing "*" (when it has one) and then without the white space at its two
ends. The output "batch*\n" gives the entries "batch" and ""; in the output
" debug*\n\tgpu \r\nbatch* " the third line ends with a space, not with "*",
and keeps its "*". -/
theorem PartitionInfo_entries (out : Str) :
    joinLines (Split out newline) = out ∧ (∀ line ∈ Split out newline, newline ∉ line) ∧
    (Split out newline).length = out.count newline + 1 ∧
    (PartitionInfo out).length = (Split out newline).length ∧
    List.Forall₂ (fun line entry => ∃ core, StarStripped line core ∧ SpaceTrimmed core entry)
      (Split out newline) (PartitionInfo out) ∧
    PartitionInfo (bytes "batch*\n") = [bytes "batch", []] ∧
    PartitionInfo (bytes " debug*\n\tgpu \r\nbatch* ") =
      [bytes "debug", bytes "gpu", bytes "batch*"] := by
  refine ⟨joinLines_Split out, Split_not_mem out newline, Split_length out newline, ?_, ?_,
    by decide, by decide⟩
  · simp [PartitionInfo]
  · unfold PartitionInfo
    rw [List.forall₂_map_right_iff, List.forall₂_same]
    intro line _
    exact ⟨TrimSuffix line (bytes "*"), TrimSuffix_star line, TrimSpace_trimmed _⟩

/-! ## The collector -/

/-- The samples of one table whose keys are valid UTF-8: one per entry, with the
partition as label value. -/
theorem collect_valid (qc : QueueCollector) (metric : Desc) (h : metric.variableLabels.length = 1)
    (value : GoMap) (hv : ∀ k ∈ mapKeys value, ValidString k = true) :
    qc.collect metric value =
      some (value.map (fun e => { desc := metric, value := e.2, labelValues := [e.1] })) := by
  induction value with
  | nil => rfl
  | cons e value ih =>
    obtain ⟨k, v⟩ := e
    have hk : ValidString k = true := hv k (by simp [mapKeys])
    have ih1 := ih (fun k1 hk1 => hv k1 (by
      simp only [mapKeys, List.map_cons, List.mem_cons] at hk1 ⊢
      exact Or.inr hk1))
    simp [QueueCollector.collect, MustNewConstMetric, h, ih1, hk]

/-- A table with a key that is not valid UTF-8 makes `collect` panic. -/
theorem collect_invalid (qc : QueueCollector) (metric : Desc) (value : GoMap) (k : Str)
    (hk : k ∈ mapKeys value) (hv : ValidString k = false) :
    qc.collect metric value = none := by
  induction value with
  | nil => simp [mapKeys] at hk
  | cons e value ih =>
    obtain ⟨k1, v1⟩ := e
    simp only [mapKeys, List.map_cons, List.mem_cons] at hk
    unfold QueueCollector.collect
    cases hm : MustNewConstMetric metric v1 [k1] with
    | none => rfl
    | some m =>
      rcases hk with rfl | hk
      · simp [MustNewConstMetric, hv] at hm
      · simp only [ih hk]

theorem sendThen_none_left (second : Option (List Metric)) : sendThen none second = none := rfl

theorem sendThen_none_right (first : Option (List Metric)) : sendThen first none = none := by
  cases first <;> rfl

theorem Describe_eq (qc : QueueCollector) : qc.Describe = Table.all.map qc.desc := rfl

theorem NewQueueCollector_labels (T : Table) :
    (NewQueueCollector.desc T).variableLabels.length = 1 := by
  cases T <;> rfl

/-- The samples `Collect` sends when the sample of the queue succeeds and every
key of its tables is valid UTF-8. -/
theorem Collect_eq (squeueOut sinfoOut : Str) (qm : QueueMetrics)
    (h : QueueGetMetrics squeueOut sinfoOut = some qm)
    (hv : ∀ (T : Table), ∀ k ∈ mapKeys (qm.table T), ValidString k = true) :
    NewQueueCollector.Collect squeueOut sinfoOut =
      some (Table.all.flatMap (fun T => (qm.table T).map
        (fun e => { desc := NewQueueCollector.desc T, value := e.2, labelValues := [e.1] }))) := by
  unfold QueueCollector.Collect
  rw [h]
  have e := fun T => collect_valid NewQueueCollector (NewQueueCollector.desc T)
    (NewQueueCollector_labels T) (qm.table T) (hv T)
  have e1 := e .pending
  have e2 := e .pending_dep
  have e3 := e .running
  have e4 := e .suspended
  have e5 := e .cancelled
  have e6 := e .completing
  have e7 := e .completed
  have e8 := e .configuring
  have e9 := e .failed
  have e10 := e .timeout
  have e11 := e .preempted
  have e12 := e .node_fail
  simp only [QueueCollector.desc, QueueMetrics.table] at e1 e2 e3 e4 e5 e6 e7 e8 e9 e10 e11 e12
  simp only [e1, e2, e3, e4, e5, e6, e7, e8, e9, e10, e11, e12, sendThen, Table.all,
    List.flatMap_cons, List.flatMap_nil, List.append_nil, QueueCollector.desc, QueueMetrics.table]

/-- When some key of some table is not valid UTF-8, `Collect` panics. -/
theorem Collect_none (squeueOut sinfoOut : Str) (qm : QueueMetrics)
    (h : QueueGetMetrics squeueOut sinfoOut = some qm) (T : Table) (k : Str)
    (hk : k ∈ mapKeys (qm.table T)) (hv : ValidString k = false) :
    NewQueueCollector.Collect squeueOut sinfoOut = none := by
  unfold QueueCollector.Collect
  rw [h]
  have e := collect_invalid NewQueueCollector (NewQueueCollector.desc T) (qm.table T) k hk hv
  cases T <;> simp only [QueueCollector.desc, QueueMetrics.table] at e <;>
    simp only [e, sendThen_none_left, sendThen_none_right]

theorem PartitionInfo_ne_nil (out : Str) : PartitionInfo out ≠ [] := by
  unfold PartitionInfo
  intro h
  exact Split_ne_nil out newline (List.map_eq_nil_iff.1 h)

/-- C8 (fails on the code): on an empty queue and the partition listing
"batch\xff\n" the sample of the queue succeeds, but `Collect` panics in
`MustNewConstMetric` (the partition name "batch\xff" is not valid UTF-8), so
it does not give a sample for every descriptor of `Describe`. -/
theorem Collect_panics_on_invalid_utf8 :
    (∃ qm, QueueGetMetrics [] (bytes "batch" ++ [0xff, 0x0a]) = some qm) ∧
    ¬ ∃ metrics, NewQueueCollector.Collect [] (bytes "batch" ++ [0xff, 0x0a]) = some metrics ∧
      ∀ d : Desc, (∃ m ∈ metrics, m.desc = d) ↔ d ∈ NewQueueCollector.Describe := by
  refine ⟨⟨_, rfl⟩, ?_⟩
  rintro ⟨metrics, hm, _⟩
  have hn : NewQueueCollector.Collect [] (bytes "batch" ++ [0xff, 0x0a]) = none := by decide
  rw [hn] at hm
  cases hm

/-- C8, amended: `Describe` enumerates twelve distinct descriptors, and whenever
the sample of the queue succeeds and every partition name that is a key of the
snapshot is valid UTF-8, `Collect` completes and the descriptors for which it
emits at least one sample are exactly those `Describe` enumerates. -/
theorem Describe_Collect_round_trip (squeueOut sinfoOut : Str) (qm : QueueMetrics)
    (hs : QueueGetMetrics squeueOut sinfoOut = some qm)
    (hv : ∀ (T : Table), ∀ k ∈ mapKeys (qm.table T), ValidString k = true) :
    NewQueueCollector.Describe.length = 12 ∧ NewQueueCollector.Describe.Nodup ∧
    ∃ metrics, NewQueueCollector.Collect squeueOut sinfoOut = some metrics ∧
      ∀ d : Desc, (∃ m ∈ metrics, m.desc = d) ↔ d ∈ NewQueueCollector.Describe := by
  refine ⟨rfl, by decide, _, Collect_eq squeueOut sinfoOut qm hs hv, ?_⟩
  intro d
  rw [Describe_eq]
  constructor
  · rintro ⟨m, hm, rfl⟩
    rw [List.mem_flatMap] at hm
    obtain ⟨T, hT, hm⟩ := hm
    rw [List.mem_map] at hm
    obtain ⟨e, _, rfl⟩ := hm
    exact List.mem_map.2 ⟨T, hT, rfl⟩
  · intro hd
    obtain ⟨T, hT, rfl⟩ := List.mem_map.1 hd
    -- the partition list is never empty, and its first entry is a key of every table
    obtain ⟨p, ps, hp⟩ := List.exists_cons_of_ne_nil (PartitionInfo_ne_nil sinfoOut)
    have hk : p ∈ mapKeys (qm.table T) :=
      @listed_mem_mapKeys squeueOut (PartitionInfo sinfoOut) qm hs T p
        (by rw [hp]; exact List.mem_cons_self _ _)
    obtain ⟨e, he, _⟩ := List.mem_map.1 hk
    exact ⟨_, List.mem_flatMap.2 ⟨T, hT, List.mem_map.2 ⟨e, he, rfl⟩⟩, rfl⟩

/-- An instance of the amended C8: scenario A of the specification with the
partition listing "batch*\ngpu\n"; the keys of the snapshot are "batch", "gpu"
and "" (the empty last line of the listing). -/
theorem Describe_Collect_round_trip_witness :
    ∃ qm, QueueGetMetrics
        (bytes "1,PENDING,Dependency,batch\n2,RUNNING,None,gpu\n3,PENDING,Resources,batch")
        (bytes "batch*\ngpu\n") = some qm ∧
      (∀ (T : Table), ∀ k ∈ mapKeys (qm.table T), ValidString k = true) ∧
      NewQueueCollector.Describe.length = 12 ∧ NewQueueCollector.Describe.Nodup ∧
      ∃ metrics, NewQueueCollector.Collect
          (bytes "1,PENDING,Dependency,batch\n2,RUNNING,None,gpu\n3,PENDING,Resources,batch")
          (bytes "batch*\ngpu\n") = some metrics ∧
        ∀ d : Desc, (∃ m ∈ metrics, m.desc = d) ↔ d ∈ NewQueueCollector.Describe :=
  ⟨_, rfl, by intro T; cases T <;> decide,
    Describe_Collect_round_trip
      (bytes "1,PENDING,Dependency,batch\n2,RUNNING,None,gpu\n3,PENDING,Resources,batch")
      (bytes "batch*\ngpu\n") _ rfl (by intro T; cases T <;> decide)⟩

end SlurmQueue
